import Mathlib

/-!
Verification of the PackageIndexer server (src/PackageIndexer.py).

The store is two Python dicts, `PACKAGES` (forward map: package name to its
set of dependencies) and `DEPS` (reverse map: package name to the set of
packages depending on it).  We model a Python dict as an association list
(`dictGet`, `dictInsert`, `dictErase`), a Python set as a `Finset`, and a
Python byte string as a `List Nat` (one `Nat` per byte value).  Operations
that can raise `KeyError` in Python (`d[k]` on a missing key, `s.remove(x)`
on a missing element) are modelled with `Option`: a `none` result is an
uncaught exception.
-/

set_option linter.unusedSectionVars false

namespace PkgIdx

section Dict

variable {α : Type} {β : Type} [DecidableEq α]

/-- `d[k]` lookup on a Python dict: first (and, for a real dict, only)
binding of the key. -/
def dictGet : List (α × β) → α → Option β
  | [], _ => none
  | (k, v) :: rest, x => if x = k then some v else dictGet rest x

/-- `d[k] = v` on a Python dict: replace the binding if the key is present,
otherwise append a new binding. -/
def dictInsert : List (α × β) → α → β → List (α × β)
  | [], k, v => [(k, v)]
  | (k1, v1) :: rest, k, v =>
    if k = k1 then (k, v) :: rest else (k1, v1) :: dictInsert rest k v

/-- `del d[k]` on a Python dict: drop the first binding of the key. -/
def dictErase : List (α × β) → α → List (α × β)
  | [], _ => []
  | (k1, v1) :: rest, k => if k = k1 then rest else (k1, v1) :: dictErase rest k

/-- A real Python dict never has two bindings for the same key. -/
def NodupKeys (d : List (α × β)) : Prop := (d.map Prod.fst).Nodup

theorem dictGet_dictInsert (d : List (α × β)) (k k' : α) (v : β) :
    dictGet (dictInsert d k v) k' = if k' = k then some v else dictGet d k' := by
  induction d with
  | nil => simp [dictInsert, dictGet]
  | cons hd tl ih =>
    obtain ⟨k1, v1⟩ := hd
    by_cases hk : k = k1
    · subst hk
      by_cases hk' : k' = k <;> simp [dictInsert, dictGet, hk']
    · by_cases hk' : k' = k1
      · subst hk'
        simp [dictInsert, dictGet, hk, Ne.symm hk]
      · simp [dictInsert, dictGet, hk, hk', ih]

theorem dictGet_dictInsert_self (d : List (α × β)) (k : α) (v : β) :
    dictGet (dictInsert d k v) k = some v := by
  simp [dictGet_dictInsert]

theorem dictGet_dictInsert_ne (d : List (α × β)) {k k' : α} (v : β) (h : k' ≠ k) :
    dictGet (dictInsert d k v) k' = dictGet d k' := by
  simp [dictGet_dictInsert, h]

theorem dictInsert_self {d : List (α × β)} {k : α} {v : β}
    (h : dictGet d k = some v) : dictInsert d k v = d := by
  induction d with
  | nil => simp [dictGet] at h
  | cons hd tl ih =>
    obtain ⟨k1, v1⟩ := hd
    by_cases hk : k = k1
    · subst hk
      simp [dictGet] at h
      simp [dictInsert, h]
    · simp [dictGet, hk] at h
      simp [dictInsert, hk, ih h]

theorem dictGet_dictErase_ne (d : List (α × β)) {k k' : α} (h : k' ≠ k) :
    dictGet (dictErase d k) k' = dictGet d k' := by
  induction d with
  | nil => simp [dictErase]
  | cons hd tl ih =>
    obtain ⟨k1, v1⟩ := hd
    by_cases hk : k = k1
    · subst hk
      simp [dictErase, dictGet, h]
    · by_cases hk' : k' = k1 <;> simp [dictErase, dictGet, hk, hk', ih]

theorem dictGet_mem {d : List (α × β)} {k : α} {v : β}
    (h : dictGet d k = some v) : (k, v) ∈ d := by
  induction d with
  | nil => simp [dictGet] at h
  | cons hd tl ih =>
    obtain ⟨k1, v1⟩ := hd
    by_cases hk : k = k1
    · subst hk
      simp [dictGet] at h
      simp [h]
    · simp [dictGet, hk] at h
      simp [ih h]

theorem dictGet_dictErase_self {d : List (α × β)} (hd : NodupKeys d) (k : α) :
    dictGet (dictErase d k) k = none := by
  induction d with
  | nil => simp [dictErase, dictGet]
  | cons head tl ih =>
    obtain ⟨k1, v1⟩ := head
    simp only [NodupKeys, List.map_cons, List.nodup_cons] at hd
    by_cases hk : k = k1
    · subst hk
      simp only [dictErase, if_pos rfl]
      cases h : dictGet tl k with
      | none => exact h
      | some v =>
        exact absurd (List.mem_map_of_mem Prod.fst (dictGet_mem h)) hd.1
    · simp [dictErase, dictGet, hk, ih hd.2]

theorem nodupKeys_dictInsert (d : List (α × β)) (k : α) (v : β)
    (h : NodupKeys d) : NodupKeys (dictInsert d k v) := by
  induction d with
  | nil => simp [dictInsert, NodupKeys]
  | cons hd tl ih =>
    obtain ⟨k1, v1⟩ := hd
    simp only [NodupKeys, List.map_cons, List.nodup_cons] at h
    by_cases hk : k = k1
    · subst hk
      simpa [dictInsert, NodupKeys] using h
    · have htl := ih h.2
      simp only [dictInsert, if_neg hk, NodupKeys, List.map_cons, List.nodup_cons]
      refine ⟨fun hmem => ?_, htl⟩
      -- a key of `dictInsert tl k v` is a key of `tl` or is `k` itself
      have : ∀ (t : List (α × β)), k1 ∉ t.map Prod.fst → k1 ≠ k →
          k1 ∉ (dictInsert t k v).map Prod.fst := by
        intro t
        induction t with
        | nil => intro _ hne; simpa [dictInsert] using hne
        | cons hd2 tl2 ih2 =>
          obtain ⟨k2, v2⟩ := hd2
          intro hnot hne
          simp only [List.map_cons, List.mem_cons] at hnot
          push_neg at hnot
          by_cases hk2 : k = k2
          · subst hk2
            simp [dictInsert, List.map_cons, hne, hnot.2]
          · simp only [dictInsert, if_neg hk2, List.map_cons, List.mem_cons]
            push_neg
            exact ⟨hnot.1, ih2 hnot.2 hne⟩
      exact this tl h.1 (fun he => hk he.symm) hmem

theorem nodupKeys_dictErase (d : List (α × β)) (k : α)
    (h : NodupKeys d) : NodupKeys (dictErase d k) := by
  induction d with
  | nil => simpa [dictErase] using h
  | cons hd tl ih =>
    obtain ⟨k1, v1⟩ := hd
    simp only [NodupKeys, List.map_cons, List.nodup_cons] at h
    by_cases hk : k = k1
    · subst hk
      simpa [dictErase, NodupKeys] using h.2
    · simp only [dictErase, if_neg hk, NodupKeys, List.map_cons, List.nodup_cons]
      refine ⟨fun hmem => ?_, ih h.2⟩
      -- erasing only removes bindings, so keys of the result are keys of `tl`
      have : ∀ (t : List (α × β)), (dictErase t k).map Prod.fst ⊆ t.map Prod.fst := by
        intro t
        induction t with
        | nil => simp [dictErase]
        | cons hd2 tl2 ih2 =>
          obtain ⟨k2, v2⟩ := hd2
          by_cases hk2 : k = k2
          · simp [dictErase, hk2, List.subset_cons_of_subset, List.Subset.refl]
          · simp only [dictErase, if_neg hk2, List.map_cons]
            exact List.cons_subset_cons _ ih2
      exact h.1 (this tl hmem)

end Dict

/-- Server responses (`RES_OK`, `RES_FAIL`, `RES_ERROR`). -/
inductive Resp : Type
  | ok : Resp
  | fail : Resp
  | error : Resp
deriving DecidableEq, Repr

/-- The shared store: `packages` models the `PACKAGES` dict (forward map from
a package to its dependency set), `deps` models the `DEPS` dict (reverse map
from a package to its set of dependents). -/
structure Store (α : Type) : Type where
  packages : List (α × Finset α)
  deps : List (α × Finset α)
deriving DecidableEq

section StoreOps

variable {α : Type} [LinearOrder α]

/-- Enumeration of a Python set.  Iteration order of a Python set is
unspecified, and every loop below is insensitive to it, so we fix the
sorted order to obtain a deterministic executable model. -/
def pySetList (s : Finset α) : List α :=
  Quot.liftOn s.val (List.insertionSort (fun a b => a ≤ b))
    (fun l1 l2 h =>
      List.eq_of_perm_of_sorted
        (((List.perm_insertionSort _ l1).trans h).trans
          (List.perm_insertionSort _ l2).symm)
        (List.sorted_insertionSort _ l1) (List.sorted_insertionSort _ l2))

theorem mem_pySetList (s : Finset α) (a : α) : a ∈ pySetList s ↔ a ∈ s := by
  obtain ⟨m, hn⟩ := s
  induction m using Quotient.inductionOn with
  | h l =>
    show a ∈ List.insertionSort (fun a b => a ≤ b) l ↔ _
    rw [(List.perm_insertionSort (fun a b => a ≤ b) l).mem_iff]
    simp [Finset.mem_def]

theorem nodup_pySetList (s : Finset α) : (pySetList s).Nodup := by
  obtain ⟨m, hn⟩ := s
  induction m using Quotient.inductionOn with
  | h l =>
    show (List.insertionSort (fun a b => a ≤ b) l).Nodup
    exact ((List.perm_insertionSort (fun a b => a ≤ b) l).nodup_iff).mpr hn

/-- The store at server start: both dicts empty. -/
def emptyStore : Store α := ⟨[], []⟩

/-- Dependency set currently recorded for `a` (empty when `a` is not indexed). -/
def fwdSet (st : Store α) (a : α) : Finset α := (dictGet st.packages a).getD ∅

/-- Dependent set currently recorded for `b` (empty when `b` has no entry). -/
def revSet (st : Store α) (b : α) : Finset α := (dictGet st.deps b).getD ∅

/-- The loop `for dep in ts: DEPS[dep].remove(name)`.  Each step performs a
dict lookup and a `set.remove`, either of which raises `KeyError` (modelled
as `none`) when the key or the element is absent. -/
def removeDepLoop (d : List (α × Finset α)) (name : α) : List α → Option (List (α × Finset α))
  | [] => some d
  | t :: ts =>
    match dictGet d t with
    | none => none
    | some s =>
      if name ∈ s then removeDepLoop (dictInsert d t (s.erase name)) name ts
      else none

/-- The loop `for dep in ts: if dep not in DEPS: DEPS[dep] = set();
DEPS[dep].add(name)`. -/
def addDepLoop (d : List (α × Finset α)) (name : α) : List α → List (α × Finset α)
  | [] => d
  | t :: ts =>
    match dictGet d t with
    | none => addDepLoop (dictInsert d t {name}) name ts
    | some s => addDepLoop (dictInsert d t (insert name s)) name ts

/-- Handler for the INDEX command (`indexPackage` in the source).  First the
precondition loop (`FAIL` if some dependency is unindexed or equals the
package itself), then stale-dependency cleanup for a re-index, then the
forward-map write and the reverse-map additions. -/
def indexPackage (name : α) (deps : Finset α) (st : Store α) : Option (Resp × Store α) :=
  if ∃ d ∈ deps, dictGet st.packages d = none ∨ d = name then some (.fail, st)
  else
    match dictGet st.packages name with
    | some old =>
      match removeDepLoop st.deps name (pySetList (old \ deps)) with
      | none => none
      | some d1 =>
        some (.ok, ⟨dictInsert st.packages name deps, addDepLoop d1 name (pySetList deps)⟩)
    | none =>
      some (.ok, ⟨dictInsert st.packages name deps, addDepLoop st.deps name (pySetList deps)⟩)

/-- Handler for the REMOVE command (`removePackage` in the source).  `OK` for
a non-indexed package, `FAIL` when `name in DEPS and len(DEPS[name]) > 0`,
otherwise reverse-map cleanup and deletion from the forward map. -/
def removePackage (name : α) (st : Store α) : Option (Resp × Store α) :=
  match dictGet st.packages name with
  | none => some (.ok, st)
  | some fwd =>
    if ((dictGet st.deps name).getD ∅).Nonempty then some (.fail, st)
    else
      match removeDepLoop st.deps name (pySetList fwd) with
      | none => none
      | some d1 => some (.ok, ⟨dictErase st.packages name, d1⟩)

/-- Handler for the QUERY command (`queryPackage` in the source). -/
def queryPackage (name : α) (st : Store α) : Resp × Store α :=
  (if (dictGet st.packages name).isSome then .ok else .fail, st)

/-- Invariant I1 (edge symmetry): `B ∈ forward[A]` iff `A ∈ reverse[B]`. -/
def I1 (st : Store α) : Prop := ∀ a b : α, b ∈ fwdSet st a ↔ a ∈ revSet st b

/-- Invariant I2 (closure): every declared dependency is itself indexed. -/
def I2 (st : Store α) : Prop :=
  ∀ a b : α, b ∈ fwdSet st a → (dictGet st.packages b).isSome

/-- Invariant I3 (irreflexive): no package depends on itself. -/
def I3 (st : Store α) : Prop := ∀ a : α, a ∉ fwdSet st a

/-- Well-formedness forced by Python dicts: keys are not duplicated. -/
def WF (st : Store α) : Prop := NodupKeys st.packages ∧ NodupKeys st.deps

/-- Executable check implying I1, used to certify concrete stores. -/
def I1check (st : Store α) : Bool :=
  (st.packages.all fun p => (pySetList p.2).all fun b => decide (p.1 ∈ revSet st b)) &&
  (st.deps.all fun p => (pySetList p.2).all fun a => decide (p.1 ∈ fwdSet st a))

/-- Executable check implying I2. -/
def I2check (st : Store α) : Bool :=
  st.packages.all fun p => (pySetList p.2).all fun b => (dictGet st.packages b).isSome

/-- Executable check implying I3. -/
def I3check (st : Store α) : Bool :=
  st.packages.all fun p => decide (p.1 ∉ p.2)

theorem I1_of_check {st : Store α} (h : I1check st = true) : I1 st := by
  simp only [I1check, Bool.and_eq_true, List.all_eq_true, decide_eq_true_eq] at h
  intro a b
  constructor
  · intro hab
    have hsome : dictGet st.packages a = some (fwdSet st a) := by
      unfold fwdSet at hab ⊢
      cases hg : dictGet st.packages a with
      | none => simp [hg] at hab
      | some s => simp [hg]
    exact h.1 (a, fwdSet st a) (dictGet_mem hsome) b ((mem_pySetList _ _).mpr hab)
  · intro hba
    have hsome : dictGet st.deps b = some (revSet st b) := by
      unfold revSet at hba ⊢
      cases hg : dictGet st.deps b with
      | none => simp [hg] at hba
      | some s => simp [hg]
    exact h.2 (b, revSet st b) (dictGet_mem hsome) a ((mem_pySetList _ _).mpr hba)

theorem I2_of_check {st : Store α} (h : I2check st = true) : I2 st := by
  simp only [I2check, List.all_eq_true] at h
  intro a b hab
  have hsome : dictGet st.packages a = some (fwdSet st a) := by
    unfold fwdSet at hab ⊢
    cases hg : dictGet st.packages a with
    | none => simp [hg] at hab
    | some s => simp [hg]
  exact h (a, fwdSet st a) (dictGet_mem hsome) b ((mem_pySetList _ _).mpr hab)

theorem I3_of_check {st : Store α} (h : I3check st = true) : I3 st := by
  simp only [I3check, List.all_eq_true, decide_eq_true_eq] at h
  intro a hab
  have hsome : dictGet st.packages a = some (fwdSet st a) := by
    unfold fwdSet at hab ⊢
    cases hg : dictGet st.packages a with
    | none => simp [hg] at hab
    | some s => simp [hg]
  exact h (a, fwdSet st a) (dictGet_mem hsome) hab

/-- Value looked up in a reverse-map list, defaulting to the empty set. -/
def revSetOf (d : List (α × Finset α)) (b : α) : Finset α := (dictGet d b).getD ∅

theorem removeDepLoop_isSome {name : α} {ts : List α} (hts : ts.Nodup)
    (d : List (α × Finset α)) :
    (removeDepLoop d name ts).isSome ↔ ∀ t ∈ ts, name ∈ revSetOf d t := by
  induction ts generalizing d with
  | nil => simp [removeDepLoop]
  | cons t ts ih =>
    simp only [List.nodup_cons] at hts
    cases hg : dictGet d t with
    | none =>
      simp only [removeDepLoop, hg, Option.isSome_none]
      constructor
      · intro h; exact absurd h (by simp)
      · intro h
        have := h t (by simp)
        simp [revSetOf, hg] at this
    | some s =>
      by_cases hmem : name ∈ s
      · simp only [removeDepLoop, hg, if_pos hmem]
        rw [ih hts.2]
        constructor
        · intro h u hu
          rcases List.mem_cons.mp hu with rfl | hu'
          · simp [revSetOf, hg, hmem]
          · have hne : u ≠ t := fun he => hts.1 (he ▸ hu')
            have := h u hu'
            rwa [revSetOf, dictGet_dictInsert_ne _ _ hne] at this
        · intro h u hu
          have hne : u ≠ t := fun he => hts.1 (he ▸ hu)
          rw [revSetOf, dictGet_dictInsert_ne _ _ hne]
          exact h u (List.mem_cons_of_mem _ hu)
      · simp only [removeDepLoop, hg, if_neg hmem, Option.isSome_none]
        constructor
        · intro h; exact absurd h (by simp)
        · intro h
          have := h t (by simp)
          simp [revSetOf, hg] at this
          exact absurd this hmem

theorem removeDepLoop_effect {name : α} {ts : List α}
    {d d' : List (α × Finset α)} (h : removeDepLoop d name ts = some d') (b : α) :
    (∀ x, x ≠ name → (x ∈ revSetOf d' b ↔ x ∈ revSetOf d b)) ∧
    (name ∈ revSetOf d' b ↔ name ∈ revSetOf d b ∧ b ∉ ts) := by
  induction ts generalizing d with
  | nil =>
    simp only [removeDepLoop, Option.some_inj] at h
    subst h
    simp
  | cons t ts ih =>
    cases hg : dictGet d t with
    | none => simp [removeDepLoop, hg] at h
    | some s =>
      by_cases hmem : name ∈ s
      · simp only [removeDepLoop, hg, if_pos hmem] at h
        obtain ⟨ih1, ih2⟩ := ih h
        by_cases hb : b = t
        · subst hb
          constructor
          · intro x hx
            rw [ih1 x hx, revSetOf, dictGet_dictInsert_self]
            simp [revSetOf, hg, Finset.mem_erase, hx]
          · rw [ih2, revSetOf, dictGet_dictInsert_self]
            simp
        · constructor
          · intro x hx
            rw [ih1 x hx, revSetOf, dictGet_dictInsert_ne _ _ hb]
            rfl
          · rw [ih2, revSetOf, dictGet_dictInsert_ne _ _ hb]
            simp only [List.mem_cons]
            constructor
            · rintro ⟨h1, h2⟩; exact ⟨h1, by simp [hb, h2]⟩
            · rintro ⟨h1, h2⟩; exact ⟨h1, fun hm => h2 (Or.inr hm)⟩
      · simp [removeDepLoop, hg, if_neg hmem] at h

theorem removeDepLoop_keys {name : α} {ts : List α}
    {d d' : List (α × Finset α)} (h : removeDepLoop d name ts = some d')
    {k : α} (hk : k ∉ ts) : dictGet d' k = dictGet d k := by
  induction ts generalizing d with
  | nil =>
    simp only [removeDepLoop, Option.some_inj] at h
    subst h; rfl
  | cons t ts ih =>
    cases hg : dictGet d t with
    | none => simp [removeDepLoop, hg] at h
    | some s =>
      by_cases hmem : name ∈ s
      · simp only [removeDepLoop, hg, if_pos hmem] at h
        simp only [List.mem_cons] at hk
        push_neg at hk
        rw [ih h hk.2, dictGet_dictInsert_ne _ _ hk.1]
      · simp [removeDepLoop, hg, if_neg hmem] at h

theorem removeDepLoop_nodupKeys {name : α} {ts : List α}
    {d d' : List (α × Finset α)} (h : removeDepLoop d name ts = some d')
    (hd : NodupKeys d) : NodupKeys d' := by
  induction ts generalizing d with
  | nil =>
    simp only [removeDepLoop, Option.some_inj] at h
    subst h; exact hd
  | cons t ts ih =>
    cases hg : dictGet d t with
    | none => simp [removeDepLoop, hg] at h
    | some s =>
      by_cases hmem : name ∈ s
      · simp only [removeDepLoop, hg, if_pos hmem] at h
        exact ih h (nodupKeys_dictInsert _ _ _ hd)
      · simp [removeDepLoop, hg, if_neg hmem] at h

theorem addDepLoop_effect (name : α) (ts : List α) (d : List (α × Finset α)) (b : α) :
    (∀ x, x ≠ name → (x ∈ revSetOf (addDepLoop d name ts) b ↔ x ∈ revSetOf d b)) ∧
    (name ∈ revSetOf (addDepLoop d name ts) b ↔ name ∈ revSetOf d b ∨ b ∈ ts) := by
  induction ts generalizing d with
  | nil => simp [addDepLoop]
  | cons t ts ih =>
    have key : ∀ s1 : Finset α,
        dictGet d t = some s1 ∨ (dictGet d t = none ∧ s1 = ∅) →
        (∀ x, x ≠ name →
          (x ∈ revSetOf (addDepLoop (dictInsert d t (insert name s1)) name ts) b ↔
            x ∈ revSetOf d b)) ∧
        (name ∈ revSetOf (addDepLoop (dictInsert d t (insert name s1)) name ts) b ↔
          name ∈ revSetOf d b ∨ b ∈ t :: ts) := by
      intro s1 hs1
      obtain ⟨ih1, ih2⟩ := ih (dictInsert d t (insert name s1))
      have hrev : revSetOf (dictInsert d t (insert name s1)) b =
          if b = t then insert name s1 else revSetOf d b := by
        by_cases hb : b = t
        · subst hb
          simp [revSetOf, dictGet_dictInsert_self]
        · simp [revSetOf, dictGet_dictInsert_ne _ _ hb, hb]
      constructor
      · intro x hx
        rw [ih1 x hx, hrev]
        by_cases hb : b = t
        · subst hb
          rcases hs1 with h1 | ⟨h1, rfl⟩ <;>
            simp [revSetOf, h1, Finset.mem_insert, hx]
        · simp [hb]
      · rw [ih2, hrev]
        by_cases hb : b = t
        · subst hb
          simp [Finset.mem_insert]
        · simp [hb, List.mem_cons]
    cases hg : dictGet d t with
    | none =>
      have := key ∅ (Or.inr ⟨hg, rfl⟩)
      simpa only [addDepLoop, hg] using this
    | some s =>
      have := key s (Or.inl hg)
      simpa only [addDepLoop, hg] using this

theorem addDepLoop_nodupKeys (name : α) (ts : List α) {d : List (α × Finset α)}
    (hd : NodupKeys d) : NodupKeys (addDepLoop d name ts) := by
  induction ts generalizing d with
  | nil => simpa [addDepLoop] using hd
  | cons t ts ih =>
    cases hg : dictGet d t with
    | none =>
      simp only [addDepLoop, hg]
      exact ih (nodupKeys_dictInsert _ _ _ hd)
    | some s =>
      simp only [addDepLoop, hg]
      exact ih (nodupKeys_dictInsert _ _ _ hd)

theorem addDepLoop_id {name : α} {ts : List α} {d : List (α × Finset α)}
    (h : ∀ t ∈ ts, ∃ s, dictGet d t = some s ∧ name ∈ s) :
    addDepLoop d name ts = d := by
  induction ts with
  | nil => rfl
  | cons t ts ih =>
    obtain ⟨s, hg, hmem⟩ := h t (by simp)
    have hins : insert name s = s := Finset.insert_eq_self.mpr hmem
    simp only [addDepLoop, hg, hins, dictInsert_self hg]
    exact ih (fun u hu => h u (List.mem_cons_of_mem _ hu))

theorem revSet_def (st : Store α) (b : α) : revSet st b = revSetOf st.deps b := rfl

theorem indexPackage_inv {st st' : Store α} {name : α} {deps : Finset α} {r : Resp}
    (h : indexPackage name deps st = some (r, st')) :
    (r = .fail ∧ st' = st ∧ (∃ d ∈ deps, dictGet st.packages d = none ∨ d = name)) ∨
    (r = .ok ∧ ¬(∃ d ∈ deps, dictGet st.packages d = none ∨ d = name)) := by
  by_cases hguard : ∃ d ∈ deps, dictGet st.packages d = none ∨ d = name
  · rw [indexPackage, if_pos hguard] at h
    simp only [Option.some_inj, Prod.mk.injEq] at h
    exact Or.inl ⟨h.1.symm, h.2.symm, hguard⟩
  · rw [indexPackage, if_neg hguard] at h
    refine Or.inr ⟨?_, hguard⟩
    cases hn : dictGet st.packages name with
    | some old =>
      simp only [hn] at h
      cases hr : removeDepLoop st.deps name (pySetList (old \ deps)) with
      | none => simp [hr] at h
      | some d1 =>
        simp only [hr, Option.some_inj, Prod.mk.injEq] at h
        exact h.1.symm
    | none =>
      simp only [hn, Option.some_inj, Prod.mk.injEq] at h
      exact h.1.symm

theorem indexPackage_ok_effect {st st' : Store α} {name : α} {deps : Finset α}
    (h1 : I1 st) (h : indexPackage name deps st = some (.ok, st')) :
    dictGet st'.packages name = some deps ∧
    (∀ a, a ≠ name → dictGet st'.packages a = dictGet st.packages a) ∧
    (∀ b x, x ≠ name → (x ∈ revSet st' b ↔ x ∈ revSet st b)) ∧
    (∀ b, name ∈ revSet st' b ↔ b ∈ deps) := by
  by_cases hguard : ∃ d ∈ deps, dictGet st.packages d = none ∨ d = name
  · rw [indexPackage, if_pos hguard] at h
    simp at h
  · rw [indexPackage, if_neg hguard] at h
    cases hn : dictGet st.packages name with
    | none =>
      simp only [hn, Option.some_inj, Prod.mk.injEq, true_and] at h
      subst h
      refine ⟨dictGet_dictInsert_self _ _ _, fun a ha => dictGet_dictInsert_ne _ _ ha, ?_, ?_⟩
      · intro b x hx
        exact (addDepLoop_effect name (pySetList deps) st.deps b).1 x hx
      · intro b
        rw [revSet_def, (addDepLoop_effect name (pySetList deps) st.deps b).2,
          mem_pySetList]
        have : ¬ name ∈ revSet st b := by
          intro hmem
          have := (h1 name b).mpr hmem
          rw [fwdSet, hn] at this
          simp at this
        rw [revSet_def] at this
        simp [this]
    | some old =>
      simp only [hn] at h
      cases hr : removeDepLoop st.deps name (pySetList (old \ deps)) with
      | none => simp [hr] at h
      | some d1 =>
        simp only [hr, Option.some_inj, Prod.mk.injEq, true_and] at h
        subst h
        refine ⟨dictGet_dictInsert_self _ _ _, fun a ha => dictGet_dictInsert_ne _ _ ha, ?_, ?_⟩
        · intro b x hx
          rw [revSet_def, (addDepLoop_effect name (pySetList deps) d1 b).1 x hx,
            (removeDepLoop_effect hr b).1 x hx, revSet_def]
        · intro b
          rw [revSet_def, (addDepLoop_effect name (pySetList deps) d1 b).2,
            mem_pySetList, (removeDepLoop_effect hr b).2, mem_pySetList]
          have hold : name ∈ revSet st b ↔ b ∈ old := by
            rw [← h1 name b, fwdSet, hn]
            simp
          rw [revSet_def] at hold
          rw [hold, Finset.mem_sdiff]
          by_cases hbd : b ∈ deps <;> by_cases hbo : b ∈ old <;> simp [hbd, hbo]

theorem indexPackage_isSome {st : Store α} (h1 : I1 st) (name : α) (deps : Finset α) :
    (indexPackage name deps st).isSome := by
  by_cases hguard : ∃ d ∈ deps, dictGet st.packages d = none ∨ d = name
  · rw [indexPackage, if_pos hguard]; rfl
  · rw [indexPackage, if_neg hguard]
    cases hn : dictGet st.packages name with
    | none => simp [hn]
    | some old =>
      have hsucc : (removeDepLoop st.deps name (pySetList (old \ deps))).isSome := by
        rw [removeDepLoop_isSome (nodup_pySetList _)]
        intro t ht
        rw [mem_pySetList, Finset.mem_sdiff] at ht
        have : t ∈ fwdSet st name := by rw [fwdSet, hn]; exact ht.1
        have := (h1 name t).mp this
        rwa [revSet_def] at this
      cases hr : removeDepLoop st.deps name (pySetList (old \ deps)) with
      | none => rw [hr] at hsucc; simp at hsucc
      | some d1 => simp [hn, hr]

theorem indexPackage_I1 {st st' : Store α} {name : α} {deps : Finset α} {r : Resp}
    (h1 : I1 st) (h : indexPackage name deps st = some (r, st')) : I1 st' := by
  rcases indexPackage_inv h with ⟨rfl, rfl, _⟩ | ⟨rfl, hguard⟩
  · exact h1
  · obtain ⟨e1, e2, e3, e4⟩ := indexPackage_ok_effect h1 h
    intro a b
    by_cases ha : a = name
    · subst ha
      rw [fwdSet, e1, e4 b]
      simp
    · rw [fwdSet, e2 a ha]
      rw [show (dictGet st.packages a).getD ∅ = fwdSet st a from rfl, h1 a b]
      exact (e3 b a ha).symm

theorem indexPackage_WF {st st' : Store α} {name : α} {deps : Finset α} {r : Resp}
    (hwf : WF st) (h : indexPackage name deps st = some (r, st')) : WF st' := by
  by_cases hguard : ∃ d ∈ deps, dictGet st.packages d = none ∨ d = name
  · rw [indexPackage, if_pos hguard] at h
    simp only [Option.some_inj, Prod.mk.injEq] at h
    rw [← h.2]
    exact hwf
  · rw [indexPackage, if_neg hguard] at h
    cases hn : dictGet st.packages name with
    | none =>
      simp only [hn, Option.some_inj, Prod.mk.injEq] at h
      rw [← h.2]
      exact ⟨nodupKeys_dictInsert _ _ _ hwf.1, addDepLoop_nodupKeys _ _ hwf.2⟩
    | some old =>
      simp only [hn] at h
      cases hr : removeDepLoop st.deps name (pySetList (old \ deps)) with
      | none => simp [hr] at h
      | some d1 =>
        simp only [hr, Option.some_inj, Prod.mk.injEq] at h
        rw [← h.2]
        exact ⟨nodupKeys_dictInsert _ _ _ hwf.1,
          addDepLoop_nodupKeys _ _ (removeDepLoop_nodupKeys hr hwf.2)⟩

theorem removePackage_not_indexed {st : Store α} {name : α}
    (hn : dictGet st.packages name = none) :
    removePackage name st = some (.ok, st) := by
  rw [removePackage]
  simp [hn]

theorem removePackage_guard {st : Store α} {name : α} {fwd : Finset α}
    (hn : dictGet st.packages name = some fwd) (hne : (revSet st name).Nonempty) :
    removePackage name st = some (.fail, st) := by
  rw [removePackage]
  simp only [hn]
  rw [if_pos (show ((dictGet st.deps name).getD ∅).Nonempty from hne)]

theorem removePackage_ok_post {st : Store α} {name : α} {fwd : Finset α}
    (h1 : I1 st) (hn : dictGet st.packages name = some fwd)
    (hne : ¬(revSet st name).Nonempty) :
    ∃ st', removePackage name st = some (.ok, st') ∧
      st'.packages = dictErase st.packages name ∧
      (∀ b x, x ≠ name → (x ∈ revSet st' b ↔ x ∈ revSet st b)) ∧
      (∀ b, name ∈ revSet st' b ↔ name ∈ revSet st b ∧ b ∉ fwd) ∧
      dictGet st'.deps name = dictGet st.deps name := by
  have hfwd : fwdSet st name = fwd := by rw [fwdSet, hn]; rfl
  have hsucc : (removeDepLoop st.deps name (pySetList fwd)).isSome := by
    rw [removeDepLoop_isSome (nodup_pySetList _)]
    intro t ht
    rw [mem_pySetList] at ht
    have : t ∈ fwdSet st name := by rw [hfwd]; exact ht
    have := (h1 name t).mp this
    rwa [revSet_def] at this
  cases hr : removeDepLoop st.deps name (pySetList fwd) with
  | none => rw [hr] at hsucc; simp at hsucc
  | some d1 =>
    refine ⟨⟨dictErase st.packages name, d1⟩, ?_, rfl, ?_, ?_, ?_⟩
    · rw [removePackage]
      simp only [hn]
      rw [if_neg (show ¬((dictGet st.deps name).getD ∅).Nonempty from hne)]
      simp only [hr]
    · intro b x hx
      exact (removeDepLoop_effect hr b).1 x hx
    · intro b
      rw [revSet_def]
      show name ∈ revSetOf d1 b ↔ _
      rw [(removeDepLoop_effect hr b).2, mem_pySetList, revSet_def]
    · have hnotin : name ∉ pySetList fwd := by
        rw [mem_pySetList]
        intro hmem
        have : name ∈ fwdSet st name := by rw [hfwd]; exact hmem
        exact hne ⟨name, (h1 name name).mp this⟩
      exact removeDepLoop_keys hr hnotin

theorem removePackage_isSome {st : Store α} (h1 : I1 st) (name : α) :
    (removePackage name st).isSome := by
  cases hn : dictGet st.packages name with
  | none => rw [removePackage_not_indexed hn]; rfl
  | some fwd =>
    by_cases hne : (revSet st name).Nonempty
    · rw [removePackage_guard hn hne]; rfl
    · obtain ⟨st', hrun, _⟩ := removePackage_ok_post h1 hn hne
      rw [hrun]; rfl

theorem removePackage_I1 {st st' : Store α} {name : α} {r : Resp}
    (hwf : WF st) (h1 : I1 st) (h : removePackage name st = some (r, st')) : I1 st' := by
  cases hn : dictGet st.packages name with
  | none =>
    rw [removePackage_not_indexed hn] at h
    simp only [Option.some_inj, Prod.mk.injEq] at h
    rw [← h.2]; exact h1
  | some fwd =>
    by_cases hne : (revSet st name).Nonempty
    · rw [removePackage_guard hn hne] at h
      simp only [Option.some_inj, Prod.mk.injEq] at h
      rw [← h.2]; exact h1
    · obtain ⟨st2, hrun, hpk, hrev1, hrev2, _⟩ := removePackage_ok_post h1 hn hne
      rw [hrun] at h
      simp only [Option.some_inj, Prod.mk.injEq] at h
      rw [← h.2]
      intro a b
      by_cases ha : a = name
      · subst ha
        rw [fwdSet, hpk, dictGet_dictErase_self hwf.1]
        simp only [Option.getD_none, Finset.not_mem_empty, false_iff]
        rw [hrev2 b]
        rintro ⟨hmem, hnot⟩
        have hb : b ∈ fwdSet st a := (h1 a b).mpr hmem
        rw [fwdSet, hn] at hb
        exact hnot hb
      · rw [fwdSet, hpk, dictGet_dictErase_ne _ ha]
        rw [show (dictGet st.packages a).getD ∅ = fwdSet st a from rfl, h1 a b]
        exact (hrev1 b a ha).symm

theorem removePackage_WF {st st' : Store α} {name : α} {r : Resp}
    (hwf : WF st) (h : removePackage name st = some (r, st')) : WF st' := by
  cases hn : dictGet st.packages name with
  | none =>
    rw [removePackage_not_indexed hn] at h
    simp only [Option.some_inj, Prod.mk.injEq] at h
    rw [← h.2]; exact hwf
  | some fwd =>
    rw [removePackage] at h
    simp only [hn] at h
    by_cases hne : ((dictGet st.deps name).getD ∅).Nonempty
    · rw [if_pos hne] at h
      simp only [Option.some_inj, Prod.mk.injEq] at h
      rw [← h.2]; exact hwf
    · rw [if_neg hne] at h
      cases hr : removeDepLoop st.deps name (pySetList fwd) with
      | none => simp [hr] at h
      | some d1 =>
        simp only [hr, Option.some_inj, Prod.mk.injEq] at h
        rw [← h.2]
        exact ⟨nodupKeys_dictErase _ _ hwf.1, removeDepLoop_nodupKeys hr hwf.2⟩

/-- A request already dispatched to the store: the three commands. -/
inductive Op (α : Type) : Type
  | index : α → Finset α → Op α
  | remove : α → Op α
  | query : α → Op α
deriving DecidableEq

/-- Dispatch one command to its handler. -/
def applyOp (op : Op α) (st : Store α) : Option (Resp × Store α) :=
  match op with
  | .index name deps => indexPackage name deps st
  | .remove name => removePackage name st
  | .query name => some (queryPackage name st)

/-- Run a sequence of commands from a starting store, keeping only the store.
A `none` result means some command raised an uncaught exception. -/
def runOps : List (Op α) → Store α → Option (Store α)
  | [], st => some st
  | op :: ops, st =>
    match applyOp op st with
    | none => none
    | some (_, st') => runOps ops st'

theorem applyOp_inv {st st' : Store α} {op : Op α} {r : Resp}
    (hwf : WF st) (h1 : I1 st) (h : applyOp op st = some (r, st')) :
    WF st' ∧ I1 st' := by
  cases op with
  | index name deps => exact ⟨indexPackage_WF hwf h, indexPackage_I1 h1 h⟩
  | remove name => exact ⟨removePackage_WF hwf h, removePackage_I1 hwf h1 h⟩
  | query name =>
    simp only [applyOp, queryPackage, Option.some_inj, Prod.mk.injEq] at h
    rw [← h.2]
    exact ⟨hwf, h1⟩

theorem runOps_inv {ops : List (Op α)} {st st' : Store α}
    (hwf : WF st) (h1 : I1 st) (h : runOps ops st = some st') :
    WF st' ∧ I1 st' := by
  induction ops generalizing st with
  | nil =>
    simp only [runOps, Option.some_inj] at h
    rw [← h]; exact ⟨hwf, h1⟩
  | cons op ops ih =>
    rw [runOps] at h
    cases ha : applyOp op st with
    | none => simp [ha] at h
    | some p =>
      obtain ⟨r, st2⟩ := p
      simp only [ha] at h
      obtain ⟨hwf2, h12⟩ := applyOp_inv hwf h1 ha
      exact ih hwf2 h12 h

theorem emptyStore_WF : WF (emptyStore : Store α) := by
  constructor <;> simp [emptyStore, NodupKeys]

theorem emptyStore_I1 : I1 (emptyStore : Store α) := by
  intro a b
  simp [fwdSet, revSet, emptyStore, dictGet]

end StoreOps

/-!
Protocol layer.  A byte string is a `List Nat`; the byte values used by the
source are `NEWLINE = 10`, `REQ_TOKEN_SEPARATOR = 124` (`|`) and
`REQ_DEPS_SEPARATOR = 44` (`,`).  Package names on the wire are byte strings,
so the store is instantiated at `List Nat` here.
-/

/-- `CMD_INDEX = b'INDEX'`. -/
def CMD_INDEX : List Nat := [73, 78, 68, 69, 88]

/-- `CMD_REMOVE = b'REMOVE'`. -/
def CMD_REMOVE : List Nat := [82, 69, 77, 79, 86, 69]

/-- `CMD_QUERY = b'QUERY'`. -/
def CMD_QUERY : List Nat := [81, 85, 69, 82, 89]

/-- A structured request as dispatched by `processRequest`. -/
inductive Command : Type
  | index : List Nat → Finset (List Nat) → Command
  | remove : List Nat → Command
  | query : List Nat → Command
deriving DecidableEq

/-- `isPackageNameValid`: a name is valid when its length is positive. -/
def isPackageNameValid (name : List Nat) : Bool := decide (name ≠ [])

/-- `parseDepsToken`: an empty token is no dependencies, otherwise the token
is split on `,` and collected into a set. -/
def parseDepsToken (depsToken : List Nat) : Finset (List Nat) :=
  if depsToken = [] then ∅ else (depsToken.splitOn 44).toFinset

/-- The parsing half of `processRequest`: split the request message on `|`
into exactly three tokens, parse the dependency token, validate the names,
and validate the command (REMOVE and QUERY take no dependencies).  `none` is
the source's `RES_ERROR` outcome for a malformed request. -/
def parseRequest (requestMsg : List Nat) : Option Command :=
  match requestMsg.splitOn 124 with
  | [cmd, name, depsToken] =>
    let deps := parseDepsToken depsToken
    if isPackageNameValid name = false then none
    else if ∃ d ∈ deps, isPackageNameValid d = false then none
    else if cmd = CMD_INDEX then some (.index name deps)
    else if cmd = CMD_REMOVE then
      if deps ≠ ∅ then none else some (.remove name)
    else if cmd = CMD_QUERY then
      if deps ≠ ∅ then none else some (.query name)
    else none
  | _ => none

/-- The dispatching half of `processRequest`: run the parsed command against
the store; a parse failure is answered with `ERROR` and touches nothing. -/
def processRequest (requestMsg : List Nat) (st : Store (List Nat)) :
    Option (Resp × Store (List Nat)) :=
  match parseRequest requestMsg with
  | none => some (.error, st)
  | some (.index name deps) => indexPackage name deps st
  | some (.remove name) => removePackage name st
  | some (.query name) => some (queryPackage name st)

/-- ASCII whitespace, the characters removed by Python `bytes.strip()`. -/
def isSpace (b : Nat) : Bool :=
  b = 32 || b = 9 || b = 10 || b = 11 || b = 12 || b = 13

/-- Python `bytes.strip()`: drop ASCII whitespace from both ends. -/
def pyStrip (data : List Nat) : List Nat :=
  (data.dropWhile isSpace).rdropWhile isSpace

/-- The response computed by `receiveRequest` for one received frame `data`
(the bytes accumulated by the receive loop): reject a frame that does not
end in a newline, strip whitespace, reject a remaining embedded newline,
otherwise process the request. -/
def handleFrame (data : List Nat) (st : Store (List Nat)) :
    Option (Resp × Store (List Nat)) :=
  if data.getLast? ≠ some 10 then some (.error, st)
  else
    let requestMsg := pyStrip data
    if 10 ∈ requestMsg then some (.error, st)
    else processRequest requestMsg st

/-- The accumulation loop of `receiveRequest`: append packets until one is
empty or ends in a newline.  `chunks` is the sequence of packets the socket
delivers; `none` means the loop would block waiting for more data. -/
def recvLoop (chunks : List (List Nat)) (acc : List Nat) : Option (List Nat) :=
  match chunks with
  | [] => none
  | packet :: rest =>
    let data := acc ++ packet
    if packet = [] ∨ packet.getLast? = some 10 then some data
    else recvLoop rest data

instance {α β : Type} [DecidableEq α] (d : List (α × β)) : Decidable (NodupKeys d) := by
  unfold NodupKeys
  infer_instance

instance {α : Type} [LinearOrder α] (st : Store α) : Decidable (WF st) := by
  unfold WF
  exact instDecidableAnd

/-! Claim theorems. -/

/-- C1: starting from the empty store, after every completed index, remove,
or query operation, edge symmetry holds: for all package names A and B,
B ∈ forward[A] iff A ∈ reverse[B]. -/
theorem claim1_edge_symmetry {α : Type} [LinearOrder α] (ops : List (Op α))
    (stF : Store α) (h : runOps ops emptyStore = some stF) : I1 stF :=
  (runOps_inv emptyStore_WF emptyStore_I1 h).2

theorem claim1_witness :
    runOps [Op.index 0 ∅, Op.index 1 {0}] (emptyStore : Store Nat) =
      some ⟨[(0, ∅), (1, {0})], [(0, {1})]⟩ ∧
    I1 (⟨[(0, ∅), (1, {0})], [(0, {1})]⟩ : Store Nat) :=
  ⟨by decide, claim1_edge_symmetry [Op.index 0 ∅, Op.index 1 {0}] _ (by decide)⟩

/-- C2: index(name, deps) returns FAIL iff name ∈ deps or some dependency is
not a key of the forward map, and on FAIL both maps are exactly as before
the call. -/
theorem claim2_index_fail_iff {α : Type} [LinearOrder α] (st : Store α)
    (name : α) (deps : Finset α) :
    ((∃ st2, indexPackage name deps st = some (.fail, st2)) ↔
      name ∈ deps ∨ ∃ d ∈ deps, dictGet st.packages d = none) ∧
    ((name ∈ deps ∨ ∃ d ∈ deps, dictGet st.packages d = none) →
      indexPackage name deps st = some (.fail, st)) := by
  have hguardiff : (∃ d ∈ deps, dictGet st.packages d = none ∨ d = name) ↔
      (name ∈ deps ∨ ∃ d ∈ deps, dictGet st.packages d = none) := by
    constructor
    · rintro ⟨d, hd, hnone | rfl⟩
      · exact Or.inr ⟨d, hd, hnone⟩
      · exact Or.inl hd
    · rintro (hmem | ⟨d, hd, hnone⟩)
      · exact ⟨name, hmem, Or.inr rfl⟩
      · exact ⟨d, hd, Or.inl hnone⟩
  constructor
  · constructor
    · rintro ⟨st2, hfail⟩
      rcases indexPackage_inv hfail with ⟨_, _, hguard⟩ | ⟨hok, _⟩
      · exact hguardiff.mp hguard
      · exact absurd hok (by simp)
    · intro hcond
      exact ⟨st, by rw [indexPackage, if_pos (hguardiff.mpr hcond)]⟩
  · intro hcond
    rw [indexPackage, if_pos (hguardiff.mpr hcond)]

theorem claim2_witness :
    indexPackage 0 {0} (emptyStore : Store Nat) = some (.fail, emptyStore) :=
  (claim2_index_fail_iff emptyStore 0 {0}).2 (Or.inl (by decide))

/-- C3: remove(name) returns OK and changes nothing when name is not
indexed; returns FAIL and changes nothing when reverse[name] is non-empty;
otherwise removes name from reverse[d] for every d ∈ forward[name], deletes
forward[name], leaves the reverse[name] entry in place, and returns OK.
The hypotheses restrict to legal store states: unique dict keys (inherent
to Python dicts) and invariant I1 (holds in every reachable state, C1). -/
theorem claim3_remove_spec {α : Type} [LinearOrder α] (st : Store α) (name : α)
    (hwf : WF st) (h1 : I1 st) :
    (dictGet st.packages name = none → removePackage name st = some (.ok, st)) ∧
    (∀ fwd, dictGet st.packages name = some fwd → (revSet st name).Nonempty →
      removePackage name st = some (.fail, st)) ∧
    (∀ fwd, dictGet st.packages name = some fwd → ¬(revSet st name).Nonempty →
      ∃ st', removePackage name st = some (.ok, st') ∧
        dictGet st'.packages name = none ∧
        (∀ a, a ≠ name → dictGet st'.packages a = dictGet st.packages a) ∧
        (∀ b, name ∈ revSet st' b ↔ name ∈ revSet st b ∧ b ∉ fwd) ∧
        (∀ b x, x ≠ name → (x ∈ revSet st' b ↔ x ∈ revSet st b)) ∧
        dictGet st'.deps name = dictGet st.deps name) := by
  refine ⟨fun hn => removePackage_not_indexed hn,
    fun fwd hn hne => removePackage_guard hn hne,
    fun fwd hn hne => ?_⟩
  obtain ⟨st', hrun, hpk, hrev1, hrev2, hkeys⟩ := removePackage_ok_post h1 hn hne
  refine ⟨st', hrun, ?_, ?_, hrev2, hrev1, hkeys⟩
  · rw [hpk]
    exact dictGet_dictErase_self hwf.1 name
  · intro a ha
    rw [hpk]
    exact dictGet_dictErase_ne _ ha

theorem claim3_witness :
    removePackage 5 (⟨[(0, ∅), (1, {0})], [(0, {1})]⟩ : Store Nat) =
      some (.ok, ⟨[(0, ∅), (1, {0})], [(0, {1})]⟩) :=
  (claim3_remove_spec (⟨[(0, ∅), (1, {0})], [(0, {1})]⟩ : Store Nat) 5
    (by decide) (I1_of_check (by decide))).1 (by decide)

/-- C4: a successful re-index exactly replaces the old dependency set:
afterwards forward[name] = deps and name has been removed from reverse[s]
for every stale s ∈ old \ deps; consequently after indexing a, b, c with
c depending on a and b and re-indexing c with only a, remove(b) returns OK. -/
theorem claim4_reindex_replaces {α : Type} [LinearOrder α] :
    (∀ (st st' : Store α) (name : α) (deps old : Finset α), I1 st →
      dictGet st.packages name = some old →
      indexPackage name deps st = some (.ok, st') →
      dictGet st'.packages name = some deps ∧
      ∀ s ∈ old \ deps, name ∉ revSet st' s) ∧
    Option.map Prod.fst (Option.bind
      (runOps [Op.index 0 ∅, Op.index 1 ∅, Op.index 2 {0, 1}, Op.index 2 {0}]
        (emptyStore : Store Nat)) (fun st => removePackage 1 st)) = some Resp.ok := by
  constructor
  · intro st st' name deps old h1 hold h
    obtain ⟨e1, _, _, e4⟩ := indexPackage_ok_effect h1 h
    refine ⟨e1, fun s hs => ?_⟩
    rw [Finset.mem_sdiff] at hs
    rw [e4 s]
    exact hs.2
  · decide

theorem claim4_witness :
    dictGet (Store.packages (⟨[(0, ∅), (1, ∅), (2, {0})], [(0, {2}), (1, ∅)]⟩ : Store Nat)) 2 =
      some {0} ∧
    ∀ s ∈ ({0, 1} : Finset Nat) \ {0},
      2 ∉ revSet (⟨[(0, ∅), (1, ∅), (2, {0})], [(0, {2}), (1, ∅)]⟩ : Store Nat) s :=
  (claim4_reindex_replaces (α := Nat)).1
    ⟨[(0, ∅), (1, ∅), (2, {0, 1})], [(0, {2}), (1, {2})]⟩ _ 2 {0} {0, 1}
    (I1_of_check (by decide)) (by decide) (by decide)

/-- C7 as stated is false: a store can satisfy I1 while a recorded dependency
is itself unindexed ({0 maps to Set 1} with reverse {1 maps to Set 0}), and
re-indexing 0 with its own current dependency set {1} then returns FAIL, not
OK, because the precondition check finds dependency 1 unindexed. -/
theorem claim7_counterexample :
    I1 (⟨[(0, {1})], [(1, {0})]⟩ : Store Nat) ∧
    dictGet (Store.packages (⟨[(0, {1})], [(1, {0})]⟩ : Store Nat)) 0 = some {1} ∧
    indexPackage 0 {1} (⟨[(0, {1})], [(1, {0})]⟩ : Store Nat) =
      some (.fail, ⟨[(0, {1})], [(1, {0})]⟩) :=
  ⟨I1_of_check (by decide), by decide, by decide⟩

/-- C7 amended: in every store state satisfying invariants I1, I2 and I3 in
which name is indexed with dependency set deps, index(name, deps) with that
identical set returns OK and leaves the store unchanged. -/
theorem claim7_reindex_idempotent {α : Type} [LinearOrder α] (st : Store α)
    (name : α) (deps : Finset α) (h1 : I1 st) (h2 : I2 st) (h3 : I3 st)
    (hname : dictGet st.packages name = some deps) :
    indexPackage name deps st = some (.ok, st) := by
  have hfwd : fwdSet st name = deps := by rw [fwdSet, hname]; rfl
  have hguard : ¬∃ d ∈ deps, dictGet st.packages d = none ∨ d = name := by
    rintro ⟨d, hd, hnone | rfl⟩
    · have hmem : d ∈ fwdSet st name := by rw [hfwd]; exact hd
      have := h2 name d hmem
      rw [hnone] at this
      simp at this
    · exact h3 d (by rw [hfwd]; exact hd)
  have hadd : addDepLoop st.deps name (pySetList deps) = st.deps := by
    refine addDepLoop_id ?_
    intro t ht
    rw [mem_pySetList] at ht
    have hmem : name ∈ revSet st t := (h1 name t).mp (by rw [hfwd]; exact ht)
    rw [revSet] at hmem
    cases hg : dictGet st.deps t with
    | none => rw [hg] at hmem; simp at hmem
    | some s =>
      rw [hg] at hmem
      exact ⟨s, rfl, by simpa using hmem⟩
  rw [indexPackage, if_neg hguard]
  simp only [hname, Finset.sdiff_self]
  show some (Resp.ok,
    (⟨dictInsert st.packages name deps, addDepLoop st.deps name (pySetList deps)⟩ : Store α)) =
    some (Resp.ok, st)
  rw [dictInsert_self hname, hadd]

theorem claim7_witness :
    indexPackage 0 ∅ (⟨[(0, ∅)], []⟩ : Store Nat) = some (.ok, ⟨[(0, ∅)], []⟩) :=
  claim7_reindex_idempotent (⟨[(0, ∅)], []⟩ : Store Nat) 0 ∅
    (I1_of_check (by decide)) (I2_of_check (by decide)) (I3_of_check (by decide))
    (by decide)

/-- C9: in every store state satisfying I1, the reverse-map cleanup removals
of INDEX and REMOVE never hit the missing-key or missing-element error
branch: both handlers always return a response instead of raising. -/
theorem claim9_cleanup_never_fails {α : Type} [LinearOrder α] (st : Store α)
    (h1 : I1 st) (name : α) (deps : Finset α) :
    (indexPackage name deps st).isSome = true ∧
    (removePackage name st).isSome = true :=
  ⟨indexPackage_isSome h1 name deps, removePackage_isSome h1 name⟩

theorem dropWhile_append_of_all {α : Type} {p : α → Bool} {w : List α}
    (l : List α) (hw : ∀ b ∈ w, p b = true) :
    (w ++ l).dropWhile p = l.dropWhile p := by
  induction w with
  | nil => rfl
  | cons b w ih =>
    have hb : p b = true := hw b (by simp)
    simp only [List.cons_append, List.dropWhile_cons, hb, if_true]
    exact ih (fun x hx => hw x (List.mem_cons_of_mem _ hx))

theorem rdropWhile_append_of_all {α : Type} {p : α → Bool} {w : List α}
    (l : List α) (hw : ∀ b ∈ w, p b = true) :
    (l ++ w).rdropWhile p = l.rdropWhile p := by
  rw [List.rdropWhile, List.rdropWhile, List.reverse_append,
    dropWhile_append_of_all _ (fun b hb => hw b (List.mem_reverse.mp hb))]

theorem pyStrip_padded {w1 w2 : List Nat} (req : List Nat)
    (hw1 : ∀ b ∈ w1, isSpace b = true) (hw2 : ∀ b ∈ w2, isSpace b = true) :
    pyStrip (w1 ++ req ++ w2 ++ [10]) = pyStrip (req ++ [10]) := by
  have hw2' : ∀ b ∈ w2 ++ [10], isSpace b = true := by
    intro b hb
    rcases List.mem_append.mp hb with hb | hb
    · exact hw2 b hb
    · simp only [List.mem_singleton] at hb
      subst hb
      decide
  have h10 : ∀ b ∈ [10], isSpace b = true := by decide
  rw [pyStrip, pyStrip,
    show w1 ++ req ++ w2 ++ [10] = w1 ++ (req ++ (w2 ++ [10])) by
      simp [List.append_assoc],
    dropWhile_append_of_all _ hw1]
  by_cases hreq : (req.dropWhile isSpace).isEmpty
  · rw [List.dropWhile_append, if_pos hreq, dropWhile_append_of_all _ hw2]
    conv_rhs => rw [List.dropWhile_append, if_pos hreq]
  · rw [List.dropWhile_append, if_neg hreq]
    conv_rhs => rw [List.dropWhile_append, if_neg hreq]
    rw [rdropWhile_append_of_all _ hw2', rdropWhile_append_of_all _ h10]

theorem claim9_witness :
    (indexPackage 2 {0, 1} (⟨[(0, ∅), (1, ∅), (2, {0, 1})], [(0, {2}), (1, {2})]⟩ :
      Store Nat)).isSome = true ∧
    (removePackage 2 (⟨[(0, ∅), (1, ∅), (2, {0, 1})], [(0, {2}), (1, {2})]⟩ :
      Store Nat)).isSome = true :=
  claim9_cleanup_never_fails _ (I1_of_check (by decide)) 2 {0, 1}

/-- C6 as stated is false: the handler strips the frame BEFORE the
embedded-newline check, so the frame b'\nINDEX|a|\n' is not answered with
ERROR; on the empty store it indexes package "a" and answers OK. -/
theorem claim6_counterexample :
    handleFrame ([10] ++ [73, 78, 68, 69, 88, 124, 97, 124] ++ [10]) emptyStore =
      some (.ok, ⟨[([97], ∅)], []⟩) ∧ Resp.ok ≠ Resp.error :=
  ⟨by decide, by decide⟩

/-- C6 amended: stripping precedes the embedded-newline check (step 4
precedes step 3); for every frame ending in a newline whose payload still
contains a newline after leading and trailing ASCII whitespace is stripped,
the handler responds ERROR without consulting the parser or the store. -/
theorem claim6_newline_checked_after_strip (data : List Nat)
    (st : Store (List Nat)) (hend : data.getLast? = some 10)
    (hmem : 10 ∈ pyStrip data) : handleFrame data st = some (.error, st) := by
  rw [handleFrame, if_neg (by simp [hend])]
  show (if 10 ∈ pyStrip data then some (Resp.error, st)
    else processRequest (pyStrip data) st) = some (.error, st)
  rw [if_pos hmem]

theorem claim6_witness :
    handleFrame [65, 10, 66, 10] emptyStore = some (.error, emptyStore) :=
  claim6_newline_checked_after_strip [65, 10, 66, 10] emptyStore
    (by decide) (by decide)

/-- C10: the handler strips leading and trailing ASCII whitespace from the
received frame before the embedded-newline check and before parsing, so a
frame that is a request surrounded by extra ASCII whitespace gets exactly
the same response as the unpadded request. -/
theorem claim10_whitespace_padding (w1 w2 req : List Nat)
    (st : Store (List Nat)) (hw1 : ∀ b ∈ w1, isSpace b = true)
    (hw2 : ∀ b ∈ w2, isSpace b = true) :
    handleFrame (w1 ++ req ++ w2 ++ [10]) st = handleFrame (req ++ [10]) st := by
  have h1 : (w1 ++ req ++ w2 ++ [10]).getLast? = some 10 := by
    rw [show w1 ++ req ++ w2 ++ [10] = (w1 ++ req ++ w2) ++ [10] by
      simp [List.append_assoc]]
    exact List.getLast?_concat _
  have h2 : (req ++ [10]).getLast? = some 10 := List.getLast?_concat _
  have e1 : handleFrame (w1 ++ req ++ w2 ++ [10]) st =
      (if 10 ∈ pyStrip (w1 ++ req ++ w2 ++ [10]) then some (Resp.error, st)
       else processRequest (pyStrip (w1 ++ req ++ w2 ++ [10])) st) := by
    rw [handleFrame]
    split
    · next hcond => exact absurd h1 hcond
    · rfl
  have e2 : handleFrame (req ++ [10]) st =
      (if 10 ∈ pyStrip (req ++ [10]) then some (Resp.error, st)
       else processRequest (pyStrip (req ++ [10])) st) := by
    rw [handleFrame]
    split
    · next hcond => exact absurd h2 hcond
    · rfl
  rw [e1, e2, pyStrip_padded req hw1 hw2]

theorem claim10_witness :
    handleFrame ([10] ++ [81, 85, 69, 82, 89, 124, 97, 124] ++ [] ++ [10])
        emptyStore =
      handleFrame ([81, 85, 69, 82, 89, 124, 97, 124] ++ [10]) emptyStore :=
  claim10_whitespace_padding [10] [] [81, 85, 69, 82, 89, 124, 97, 124]
    emptyStore (by decide) (by decide)

theorem recvLoop_complete {chunks : List (List Nat)} (acc : List Nat)
    (hne : chunks ≠ []) (hch : ∀ c ∈ chunks, c ≠ [])
    (hlast : (chunks.flatten).getLast? = some 10)
    (hdrop : 10 ∉ (chunks.flatten).dropLast) :
    recvLoop chunks acc = some (acc ++ chunks.flatten) := by
  induction chunks generalizing acc with
  | nil => exact absurd rfl hne
  | cons c rest ih =>
    cases rest with
    | nil =>
      rw [List.flatten_cons, List.flatten_nil, List.append_nil] at hlast ⊢
      rw [recvLoop]
      show (if c = [] ∨ c.getLast? = some 10 then some (acc ++ c)
        else recvLoop [] (acc ++ c)) = some (acc ++ c)
      rw [if_pos (Or.inr hlast)]
    | cons c2 rest2 =>
      have hc : c ≠ [] := hch c (by simp)
      have hrf : ((c2 :: rest2) : List (List Nat)).flatten ≠ [] := by
        rw [List.flatten_cons]
        exact List.append_ne_nil_of_left_ne_nil (hch c2 (by simp)) _
      have hflat : ((c :: c2 :: rest2) : List (List Nat)).flatten =
          c ++ (c2 :: rest2).flatten := List.flatten_cons
      have hdropglue : (((c :: c2 :: rest2) : List (List Nat)).flatten).dropLast =
          c ++ ((c2 :: rest2).flatten).dropLast := by
        rw [hflat, List.dropLast_append, if_neg (by simpa using hrf)]
      have hguard : ¬(c = [] ∨ c.getLast? = some 10) := by
        rintro (rfl | hlast10)
        · exact hc rfl
        · have hmem10 : 10 ∈ c := by
            obtain ⟨hne10, heq⟩ := List.mem_getLast?_eq_getLast
              (show 10 ∈ c.getLast? by rw [hlast10]; rfl)
            rw [heq]
            exact List.getLast_mem hne10
          apply hdrop
          rw [hdropglue]
          exact List.mem_append.mpr (Or.inl hmem10)
      have hlast' : (((c2 :: rest2) : List (List Nat)).flatten).getLast? =
          some 10 := by
        obtain ⟨b, hb⟩ : ∃ b, (((c2 :: rest2) : List (List Nat)).flatten).getLast? =
            some b := by
          cases hcase : (((c2 :: rest2) : List (List Nat)).flatten).getLast? with
          | none => exact absurd (List.getLast?_eq_none_iff.mp hcase) hrf
          | some b => exact ⟨b, rfl⟩
        rw [hflat, List.getLast?_append, hb] at hlast
        rw [hb]
        exact hlast
      have hdrop' : 10 ∉ (((c2 :: rest2) : List (List Nat)).flatten).dropLast := by
        intro hm
        apply hdrop
        rw [hdropglue]
        exact List.mem_append.mpr (Or.inr hm)
      rw [recvLoop]
      show (if c = [] ∨ c.getLast? = some 10 then some (acc ++ c)
        else recvLoop (c2 :: rest2) (acc ++ c)) = _
      rw [if_neg hguard,
        ih (acc ++ c) (by simp) (fun x hx => hch x (List.mem_cons_of_mem _ hx))
          hlast' hdrop']
      simp [hflat, List.append_assoc]

/-- C8: a valid request (its only newline is its final byte) delivered as
any sequence of one or more non-empty chunks is accumulated into the same
payload as single-chunk delivery, and the server therefore emits the same
single response. -/
theorem claim8_chunked_delivery (chunks : List (List Nat)) (req : List Nat)
    (hne : chunks ≠ []) (hch : ∀ c ∈ chunks, c ≠ [])
    (hflat : chunks.flatten = req) (hlast : req.getLast? = some 10)
    (hdrop : 10 ∉ req.dropLast) :
    recvLoop chunks [] = some req ∧ recvLoop [req] [] = some req ∧
    ∀ st : Store (List Nat),
      Option.bind (recvLoop chunks []) (fun data => handleFrame data st) =
        Option.bind (recvLoop [req] []) (fun data => handleFrame data st) := by
  have hreq : recvLoop chunks [] = some req := by
    have := recvLoop_complete [] hne hch (by rw [hflat]; exact hlast)
      (by rw [hflat]; exact hdrop)
    simpa [hflat] using this
  have hsingle : recvLoop [req] [] = some req := by
    rw [recvLoop]
    show (if req = [] ∨ req.getLast? = some 10 then some ([] ++ req)
      else recvLoop [] ([] ++ req)) = some req
    rw [if_pos (Or.inr hlast)]
    simp
  exact ⟨hreq, hsingle, fun st => by rw [hreq, hsingle]⟩

theorem claim8_witness :
    recvLoop [[73, 78], [68, 69, 88, 124, 97, 124, 10]] [] =
      some [73, 78, 68, 69, 88, 124, 97, 124, 10] :=
  (claim8_chunked_delivery [[73, 78], [68, 69, 88, 124, 97, 124, 10]]
    [73, 78, 68, 69, 88, 124, 97, 124, 10] (by decide) (by decide) (by decide)
    (by decide) (by decide)).1

/-- The rejection conditions claimed for the parser: wrong token count,
empty name, an empty comma-separated dependency segment, an unknown
command, or dependencies supplied to REMOVE or QUERY. -/
def ParseRejects (payload : List Nat) : Prop :=
  match payload.splitOn 124 with
  | [cmd, name, depsToken] =>
    name = [] ∨
    (depsToken ≠ [] ∧ [] ∈ depsToken.splitOn 44) ∨
    (cmd ≠ CMD_INDEX ∧ cmd ≠ CMD_REMOVE ∧ cmd ≠ CMD_QUERY) ∨
    ((cmd = CMD_REMOVE ∨ cmd = CMD_QUERY) ∧ parseDepsToken depsToken ≠ ∅)
  | _ => True

instance (payload : List Nat) : Decidable (ParseRejects payload) := by
  unfold ParseRejects
  split
  · infer_instance
  · infer_instance

theorem isPackageNameValid_false_iff (d : List Nat) :
    isPackageNameValid d = false ↔ d = [] := by
  simp [isPackageNameValid]

theorem empty_dep_iff (dt : List Nat) :
    (∃ d ∈ parseDepsToken dt, isPackageNameValid d = false) ↔
    (dt ≠ [] ∧ [] ∈ dt.splitOn 44) := by
  simp only [isPackageNameValid_false_iff, parseDepsToken]
  by_cases h : dt = []
  · simp [h]
  · simp [h, List.mem_toFinset]

/-- C5: the request parser yields PARSE_ERROR exactly when the payload does
not split on the pipe byte into three tokens, the name token is empty, a
non-empty deps token has an empty comma-separated segment, the command is
not a byte-exact INDEX, REMOVE or QUERY, or REMOVE/QUERY come with a
non-empty dependency set; otherwise it yields the command with the name and
the set of comma-split segments (empty token giving the empty set,
duplicates coalesced). -/
theorem claim5_parser_spec (payload : List Nat) :
    (parseRequest payload = none ↔ ParseRejects payload) ∧
    (∀ cmd name depsToken, payload.splitOn 124 = [cmd, name, depsToken] →
      ¬ ParseRejects payload →
      (cmd = CMD_INDEX → parseRequest payload = some (.index name
        (if depsToken = [] then ∅ else (depsToken.splitOn 44).toFinset))) ∧
      (cmd = CMD_REMOVE → parseRequest payload = some (.remove name)) ∧
      (cmd = CMD_QUERY → parseRequest payload = some (.query name))) := by
  rcases hsplit : payload.splitOn 124 with _ | ⟨cmd, _ | ⟨name, _ | ⟨dt, _ | ⟨x, xs⟩⟩⟩⟩
  · exact ⟨by simp [parseRequest, ParseRejects, hsplit],
      fun c n t heq _ => absurd heq (by simp)⟩
  · exact ⟨by simp [parseRequest, ParseRejects, hsplit],
      fun c n t heq _ => absurd heq (by simp)⟩
  · exact ⟨by simp [parseRequest, ParseRejects, hsplit],
      fun c n t heq _ => absurd heq (by simp)⟩
  case cons.cons.cons.cons =>
    exact ⟨by simp [parseRequest, ParseRejects, hsplit],
      fun c n t heq _ => absurd heq (by simp)⟩
  case cons.cons.cons.nil =>
    have hpr : parseRequest payload =
        (if isPackageNameValid name = false then none
         else if ∃ d ∈ parseDepsToken dt, isPackageNameValid d = false then none
         else if cmd = CMD_INDEX then some (.index name (parseDepsToken dt))
         else if cmd = CMD_REMOVE then
           if parseDepsToken dt ≠ ∅ then none else some (.remove name)
         else if cmd = CMD_QUERY then
           if parseDepsToken dt ≠ ∅ then none else some (.query name)
         else none) := by
      rw [parseRequest, hsplit]
    have hbad : ParseRejects payload ↔
        (name = [] ∨ (dt ≠ [] ∧ [] ∈ dt.splitOn 44) ∨
         (cmd ≠ CMD_INDEX ∧ cmd ≠ CMD_REMOVE ∧ cmd ≠ CMD_QUERY) ∨
         ((cmd = CMD_REMOVE ∨ cmd = CMD_QUERY) ∧ parseDepsToken dt ≠ ∅)) := by
      unfold ParseRejects
      rw [hsplit]
    constructor
    · rw [hpr, hbad]
      by_cases h1v : isPackageNameValid name = false
      · rw [if_pos h1v]
        have hname : name = [] := (isPackageNameValid_false_iff name).mp h1v
        simp [hname]
      · rw [if_neg h1v]
        have hname : name ≠ [] := fun h =>
          h1v ((isPackageNameValid_false_iff name).mpr h)
        by_cases h2v : ∃ d ∈ parseDepsToken dt, isPackageNameValid d = false
        · rw [if_pos h2v]
          have hdt := (empty_dep_iff dt).mp h2v
          simp [hname, hdt]
        · rw [if_neg h2v]
          have hdep : ¬(dt ≠ [] ∧ [] ∈ dt.splitOn 44) := fun hc =>
            h2v ((empty_dep_iff dt).mpr hc)
          by_cases hI : cmd = CMD_INDEX
          · rw [if_pos hI]
            constructor
            · intro h
              exact absurd h (by simp)
            · rintro (h | h | h | h)
              · exact absurd h hname
              · exact absurd h hdep
              · exact absurd hI h.1
              · rcases h.1 with hR | hQ
                · exact absurd (hI.symm.trans hR) (by decide)
                · exact absurd (hI.symm.trans hQ) (by decide)
          · rw [if_neg hI]
            by_cases hR : cmd = CMD_REMOVE
            · rw [if_pos hR]
              by_cases hD : parseDepsToken dt ≠ ∅
              · rw [if_pos hD]
                exact ⟨fun _ => Or.inr (Or.inr (Or.inr ⟨Or.inl hR, hD⟩)),
                  fun _ => rfl⟩
              · rw [if_neg hD]
                constructor
                · intro h
                  exact absurd h (by simp)
                · rintro (h | h | h | h)
                  · exact absurd h hname
                  · exact absurd h hdep
                  · exact absurd hR h.2.1
                  · exact absurd h.2 hD
            · rw [if_neg hR]
              by_cases hQ : cmd = CMD_QUERY
              · rw [if_pos hQ]
                by_cases hD : parseDepsToken dt ≠ ∅
                · rw [if_pos hD]
                  exact ⟨fun _ => Or.inr (Or.inr (Or.inr ⟨Or.inr hQ, hD⟩)),
                    fun _ => rfl⟩
                · rw [if_neg hD]
                  constructor
                  · intro h
                    exact absurd h (by simp)
                  · rintro (h | h | h | h)
                    · exact absurd h hname
                    · exact absurd h hdep
                    · exact absurd hQ h.2.2
                    · exact absurd h.2 hD
              · rw [if_neg hQ]
                exact ⟨fun _ => Or.inr (Or.inr (Or.inl ⟨hI, hR, hQ⟩)),
                  fun _ => rfl⟩
    · intro cmd' name' dt' heq hnr
      obtain ⟨rfl, rfl, rfl⟩ : cmd = cmd' ∧ name = name' ∧ dt = dt' := by
        simpa using heq
      rw [hbad] at hnr
      simp only [not_or] at hnr
      obtain ⟨hA, hB, _, hD4⟩ := hnr
      have hnv : ¬(isPackageNameValid name = false) := fun h =>
        hA ((isPackageNameValid_false_iff name).mp h)
      have hdv : ¬∃ d ∈ parseDepsToken dt, isPackageNameValid d = false :=
        fun h => hB ((empty_dep_iff dt).mp h)
      refine ⟨?_, ?_, ?_⟩
      · intro hI
        rw [hpr, if_neg hnv, if_neg hdv, if_pos hI]
        rfl
      · intro hR
        have hIne : cmd ≠ CMD_INDEX := fun h =>
          absurd (h.symm.trans hR) (by decide)
        have hDemp : ¬(parseDepsToken dt ≠ ∅) := fun hD => hD4 ⟨Or.inl hR, hD⟩
        rw [hpr, if_neg hnv, if_neg hdv, if_neg hIne, if_pos hR, if_neg hDemp]
      · intro hQ
        have hIne : cmd ≠ CMD_INDEX := fun h =>
          absurd (h.symm.trans hQ) (by decide)
        have hRne : cmd ≠ CMD_REMOVE := fun h =>
          absurd (h.symm.trans hQ) (by decide)
        have hDemp : ¬(parseDepsToken dt ≠ ∅) := fun hD => hD4 ⟨Or.inr hQ, hD⟩
        rw [hpr, if_neg hnv, if_neg hdv, if_neg hIne, if_neg hRne, if_pos hQ,
          if_neg hDemp]

theorem claim5_witness :
    parseRequest [73, 78, 68, 69, 88, 124, 97, 124, 98, 44, 99] =
      some (.index [97] {[98], [99]}) :=
  ((claim5_parser_spec [73, 78, 68, 69, 88, 124, 97, 124, 98, 44, 99]).2
    CMD_INDEX [97] [98, 44, 99] (by decide) (by decide)).1 rfl

end PkgIdx
